import Mathlib

/-!
Verification of the resistor-combination search core of `app.py`.

The program enumerates combinations (with repetition) of standard E12
resistor values, evaluates each combination's equivalent resistance in
series or parallel wiring, filters by a relative-error tolerance against a
target resistance, deduplicates, and ranks by (error, component count).

Embedding choices:
* Resistance magnitudes in the table are Python `int`s (`j * 10**i` with
  integer `j`, `i`), so the table and the enumerated combinations live in
  `ℕ`; they are cast to `ℚ` wherever the source does real arithmetic
  (equivalent resistance, tolerance test, percent error).
* Python floats are modelled as exact rationals `ℚ`.
* `itertools.combinations_with_replacement` is modelled by structural
  recursion on the tuple size: a tuple of non-decreasing indices is a
  choice of a first position (a suffix of the pool) followed by a tuple of
  non-decreasing indices inside that same suffix.
* Python's stable `sorted` is modelled by `List.insertionSort`; the claims
  proved here depend only on the output being a sorted permutation of the
  input.
-/

/-- Wiring mode; the source passes the strings `'series'` / `'parallel'`. -/
inductive Mode : Type
  | series : Mode
  | parallel : Mode
deriving DecidableEq

/-- The `num_resistors_option` argument: the string `"Automatic"` or a
concrete resistor count. -/
inductive NumOption : Type
  | automatic : NumOption
  | exact : ℕ → NumOption

/-- `E12_VALUES = [10, 12, 15, 18, 22, 27, 33, 39, 47, 56, 68, 82]` (app.py line 26). -/
def E12_VALUES : List ℕ := [10, 12, 15, 18, 22, 27, 33, 39, 47, 56, 68, 82]

/-- `STANDARD_RESISTORS = sorted([j * 10**i for i in range(7) for j in E12_VALUES])`
(app.py line 27).  Python's `sorted` is modelled by `List.insertionSort`. -/
def STANDARD_RESISTORS : List ℕ :=
  List.insertionSort (· ≤ ·)
    ((List.range 7).flatMap (fun i => E12_VALUES.map (fun j => j * 10 ^ i)))

/-- `MAX_RESISTORS_IN_COMBO = 4` (app.py line 28). -/
def MAX_RESISTORS_IN_COMBO : ℕ := 4

/-- `calculate_combination_value` (app.py lines 63-69): 0 for the empty
tuple; the sum in series mode; in parallel mode 0 when some magnitude is 0,
otherwise the reciprocal of the sum of reciprocals. -/
def calculate_combination_value (resistors : List ℚ) (mode : Mode) : ℚ :=
  if resistors = [] then 0
  else
    match mode with
    | Mode.series => resistors.sum
    | Mode.parallel =>
        if resistors.any (fun r => decide (r = 0)) then 0
        else 1 / (resistors.map (fun r => 1 / r)).sum

/-- Model of `itertools.combinations_with_replacement(l, n)`: all tuples of
elements of `l` taken at non-decreasing indices.  A tuple of `n+1`
non-decreasing indices is a choice of a first position --- i.e. of a
non-empty suffix `s` of `l` --- followed by a tuple of `n` non-decreasing
indices within `s` (the first position may repeat). -/
def combinations_with_replacement {α : Type*} : List α → ℕ → List (List α)
  | _, 0 => [[]]
  | l, n + 1 =>
      l.tails.flatMap (fun s =>
        match s with
        | [] => []
        | x :: t => (combinations_with_replacement (x :: t) n).map (fun b => x :: b))

/-- The candidate pool of `find_combinations` (app.py line 72): in series
mode only table values `≤ target * (1 + tolerance)` participate; in
parallel mode the whole table does. -/
def search_space (target tolerance : ℚ) (mode : Mode) : List ℕ :=
  if mode = Mode.series then
    STANDARD_RESISTORS.filter (fun r => decide ((r : ℚ) ≤ target * (1 + tolerance)))
  else STANDARD_RESISTORS

/-- The tuple sizes tried by `find_combinations` (app.py lines 74-77):
`range(1, MAX_RESISTORS_IN_COMBO + 1)` for `"Automatic"`, else
`range(n, n + 1)`, i.e. just `n`. -/
def count_range : NumOption → List ℕ
  | NumOption.automatic => List.range' 1 MAX_RESISTORS_IN_COMBO
  | NumOption.exact n => [n]

/-- `find_combinations` (app.py lines 71-83): for each tuple size in the
count range, every combination-with-repetition from the pool whose
equivalent value passes `target > 0 and abs(total - target) / target <= tolerance`
(the conjunction is short-circuit, as in Python). -/
def find_combinations (target tolerance : ℚ) (mode : Mode)
    (num_resistors_option : NumOption) : List (List ℕ) :=
  (count_range num_resistors_option).flatMap (fun i =>
    (combinations_with_replacement (search_space target tolerance mode) i).filter
      (fun combo =>
        decide (0 < target) &&
          decide (|calculate_combination_value (combo.map (fun (r : ℕ) => (r : ℚ))) mode - target|
              / target ≤ tolerance)))

/-- A ranked result of `process_results`: the dict
`{"combo": combo, "value": val, "error": error}`. -/
structure EvaluatedResult : Type where
  combo : List ℕ
  value : ℚ
  error : ℚ
deriving DecidableEq

/-- The sort key `lambda x: (x['error'], len(x['combo']))` of
`process_results` (app.py line 208), read as the lexicographic order it
induces. -/
def resLE (a b : EvaluatedResult) : Prop :=
  a.error < b.error ∨ (a.error = b.error ∧ a.combo.length ≤ b.combo.length)

instance : DecidableRel resLE := fun a b => by
  unfold resLE
  exact inferInstance

instance : IsTotal EvaluatedResult resLE := by
  constructor
  intro a b
  rcases lt_trichotomy a.error b.error with h | h | h
  · exact Or.inl (Or.inl h)
  · rcases Nat.le_total a.combo.length b.combo.length with hl | hl
    · exact Or.inl (Or.inr ⟨h, hl⟩)
    · exact Or.inr (Or.inr ⟨h.symm, hl⟩)
  · exact Or.inr (Or.inl h)

instance : IsTrans EvaluatedResult resLE := by
  constructor
  intro a b c hab hbc
  rcases hab with hab | ⟨hab, hab'⟩
  · rcases hbc with hbc | ⟨hbc, _⟩
    · exact Or.inl (hab.trans hbc)
    · exact Or.inl (hbc ▸ hab)
  · rcases hbc with hbc | ⟨hbc, hbc'⟩
    · exact Or.inl (hab ▸ hbc)
    · exact Or.inr ⟨hab.trans hbc, hab'.trans hbc'⟩

/-- `process_results` (app.py lines 202-208): deduplicate via `set(combos)`
(tuple equality), evaluate each remaining tuple, and sort by
`(error, len(combo))`.  `set` is modelled by `List.dedup` and Python's
stable `sorted` by `List.insertionSort`; the iteration order of a Python
`set` is unspecified, and none of the properties proved below depend on
the order of ties. -/
def process_results (combos : List (List ℕ)) (mode : Mode) (target_val : ℚ) :
    List EvaluatedResult :=
  List.insertionSort resLE
    (combos.dedup.map (fun combo =>
      { combo := combo
        value := calculate_combination_value (combo.map (fun (r : ℕ) => (r : ℚ))) mode
        error := |calculate_combination_value (combo.map (fun (r : ℕ) => (r : ℚ))) mode - target_val|
            / target_val * 100 }))

/-! ## Helper lemmas -/

theorem cwr_one {α : Type*} (l : List α) :
    combinations_with_replacement l 1 = l.map (fun x => [x]) := by
  induction l with
  | nil => rfl
  | cons x t ih =>
      show ((x :: t).tails.flatMap _) = _
      rw [List.tails_cons, List.flatMap_cons]
      show ((combinations_with_replacement (x :: t) 0).map (fun b => x :: b)) ++
          (combinations_with_replacement t 1) = _
      rw [ih]
      rfl

/-- Membership characterisation of `combinations_with_replacement` over a
strictly sorted pool: the outputs are exactly the non-decreasing tuples of
the requested length drawn (with repetition) from the pool. -/
theorem mem_combinations_with_replacement {α : Type*} [LinearOrder α] :
    ∀ (n : ℕ) (l : List α), l.Pairwise (· < ·) → ∀ a : List α,
      (a ∈ combinations_with_replacement l n ↔
        a.length = n ∧ a.Pairwise (· ≤ ·) ∧ ∀ x ∈ a, x ∈ l) := by
  intro n
  induction n with
  | zero =>
      intro l _ a
      constructor
      · intro ha
        have : a = [] := by simpa [combinations_with_replacement] using ha
        subst this
        simp
      · rintro ⟨h, _, _⟩
        have : a = [] := List.length_eq_zero.mp h
        subst this
        simp [combinations_with_replacement]
  | succ n ih =>
      intro l hl a
      constructor
      · intro ha
        simp only [combinations_with_replacement, List.mem_flatMap] at ha
        obtain ⟨s, hs, hmem⟩ := ha
        cases s with
        | nil => simp at hmem
        | cons x t =>
          change a ∈ (combinations_with_replacement (x :: t) n).map (fun b => x :: b) at hmem
          obtain ⟨b, hb, rfl⟩ := List.mem_map.mp hmem
          have hsuf : (x :: t) <:+ l := (List.mem_tails _ _).mp hs
          have hsl : (x :: t).Pairwise (· < ·) := List.Pairwise.sublist hsuf.sublist hl
          obtain ⟨hlen, hpw, hsub⟩ := (ih (x :: t) hsl b).mp hb
          refine ⟨by simp [hlen], ?_, ?_⟩
          · rw [List.pairwise_cons]
            refine ⟨?_, hpw⟩
            intro y hy
            rcases List.mem_cons.mp (hsub y hy) with rfl | hyt
            · exact le_refl y
            · exact le_of_lt ((List.pairwise_cons.mp hsl).1 y hyt)
          · intro y hy
            rcases List.mem_cons.mp hy with h | hyb
            · rw [h]
              exact hsuf.sublist.subset (List.mem_cons_self _ _)
            · exact hsuf.sublist.subset (hsub y hyb)
      · rintro ⟨hlen, hpw, hsub⟩
        cases a with
        | nil => simp at hlen
        | cons x b =>
          have hlen' : b.length = n := by simpa using hlen
          have hx : x ∈ l := hsub x (List.mem_cons_self x b)
          obtain ⟨pre, post, hdec⟩ := List.append_of_mem hx
          have hsuf : (x :: post) <:+ l := ⟨pre, hdec.symm⟩
          have hsl : (x :: post).Pairwise (· < ·) := List.Pairwise.sublist hsuf.sublist hl
          have hble : ∀ y ∈ b, x ≤ y := (List.pairwise_cons.mp hpw).1
          have hbsub : ∀ y ∈ b, y ∈ x :: post := by
            intro y hy
            have hyl : y ∈ l := hsub y (List.mem_cons_of_mem x hy)
            rw [hdec] at hyl
            rcases List.mem_append.mp hyl with hyp | hyx
            · exfalso
              have hlt : y < x :=
                (List.pairwise_append.mp (hdec ▸ hl)).2.2 y hyp x (List.mem_cons_self x post)
              exact absurd (hble y hy) (not_le.mpr hlt)
            · exact hyx
          have hb : b ∈ combinations_with_replacement (x :: post) n :=
            (ih (x :: post) hsl b).mpr ⟨hlen', (List.pairwise_cons.mp hpw).2, hbsub⟩
          simp only [combinations_with_replacement, List.mem_flatMap]
          refine ⟨x :: post, (List.mem_tails _ _).mpr hsuf, ?_⟩
          change x :: b ∈ (combinations_with_replacement (x :: post) n).map (fun b => x :: b)
          exact List.mem_map.mpr ⟨b, hb, rfl⟩

theorem standard_resistors_sorted : STANDARD_RESISTORS.Pairwise (· < ·) := by decide

theorem standard_resistors_pos : ∀ r ∈ STANDARD_RESISTORS, 0 < r := by decide

theorem standard_resistors_ge_ten : ∀ r ∈ STANDARD_RESISTORS, 10 ≤ r := by decide

theorem search_space_pairwise (target tolerance : ℚ) (mode : Mode) :
    (search_space target tolerance mode).Pairwise (· < ·) := by
  unfold search_space
  split
  · exact List.Pairwise.filter _ standard_resistors_sorted
  · exact standard_resistors_sorted
/-! ## Claim theorems -/

/-- C1: `evaluate` returns 0 on the empty combination, the arithmetic sum
in series mode, and in parallel mode 0 when some magnitude is 0 and
otherwise the reciprocal of the sum of reciprocals; for a one-element
combination both modes return exactly that element. -/
theorem calculate_combination_value_spec (c : List ℚ) (m : Mode) (r : ℚ) :
    calculate_combination_value [] m = 0 ∧
    calculate_combination_value c Mode.series = c.sum ∧
    calculate_combination_value c Mode.parallel =
      (if ∃ x ∈ c, x = 0 then 0 else 1 / (c.map (fun x => 1 / x)).sum) ∧
    calculate_combination_value [r] Mode.series = r ∧
    calculate_combination_value [r] Mode.parallel = r := by
  refine ⟨rfl, ?_, ?_, ?_, ?_⟩
  · by_cases hc : c = []
    · subst hc
      simp [calculate_combination_value]
    · simp [calculate_combination_value, hc]
  · by_cases hc : c = []
    · subst hc
      simp [calculate_combination_value]
    · by_cases hz : ∃ x ∈ c, x = 0
      · rw [if_pos hz]
        have hany : c.any (fun x => decide (x = 0)) = true := by
          rw [List.any_eq_true]
          obtain ⟨x, hx, hx0⟩ := hz
          exact ⟨x, hx, by simp [hx0]⟩
        simp [calculate_combination_value, hc, hany]
      · rw [if_neg hz]
        have hany : c.any (fun x => decide (x = 0)) = false := by
          rw [List.any_eq_false]
          intro x hx
          simp only [decide_eq_true_eq]
          exact fun h0 => hz ⟨x, hx, h0⟩
        simp [calculate_combination_value, hc, hany]
  · simp [calculate_combination_value]
  · by_cases hr : r = 0
    · subst hr
      simp [calculate_combination_value]
    · simp [calculate_combination_value, hr, one_div_one_div]

/-- C6: the series-mode candidate pool is exactly the table values
`r ≤ target * (1 + tolerance)`; the parallel-mode pool is the whole table. -/
theorem search_space_spec (target tolerance : ℚ) (r : ℕ) :
    (r ∈ search_space target tolerance Mode.series ↔
      r ∈ STANDARD_RESISTORS ∧ (r : ℚ) ≤ target * (1 + tolerance)) ∧
    search_space target tolerance Mode.parallel = STANDARD_RESISTORS := by
  constructor
  · simp [search_space, List.mem_filter]
  · simp [search_space]

/-- C7: for a combination of strictly positive magnitudes, the series value
is at least every member (hence at least the maximum) and the parallel
value is at most every member (hence at most the minimum). -/
theorem series_ge_parallel_le_spec (c : List ℚ) (hpos : ∀ x ∈ c, 0 < x)
    (x : ℚ) (hx : x ∈ c) :
    x ≤ calculate_combination_value c Mode.series ∧
    calculate_combination_value c Mode.parallel ≤ x := by
  have hc : c ≠ [] := List.ne_nil_of_mem hx
  constructor
  · have : calculate_combination_value c Mode.series = c.sum := by
      simp [calculate_combination_value, hc]
    rw [this]
    exact List.single_le_sum (fun y hy => le_of_lt (hpos y hy)) x hx
  · have hany : c.any (fun r => decide (r = 0)) = false := by
      rw [List.any_eq_false]
      intro y hy
      simp only [decide_eq_true_eq]
      exact ne_of_gt (hpos y hy)
    have hcv : calculate_combination_value c Mode.parallel =
        1 / (c.map (fun r => 1 / r)).sum := by
      simp [calculate_combination_value, hc, hany]
    rw [hcv]
    have hmem : (1 : ℚ) / x ∈ c.map (fun r => 1 / r) := List.mem_map.mpr ⟨x, hx, rfl⟩
    have hterms : ∀ y ∈ c.map (fun r => 1 / r), (0 : ℚ) ≤ y := by
      intro y hy
      obtain ⟨z, hz, rfl⟩ := List.mem_map.mp hy
      exact le_of_lt (one_div_pos.mpr (hpos z hz))
    have hle : 1 / x ≤ (c.map (fun r => 1 / r)).sum := List.single_le_sum hterms _ hmem
    have hxpos : 0 < x := hpos x hx
    calc 1 / (c.map (fun r => 1 / r)).sum ≤ 1 / (1 / x) :=
          one_div_le_one_div_of_le (one_div_pos.mpr hxpos) hle
      _ = x := one_div_one_div x

/-- Witness for C7 at the concrete combination `[2, 3]` and member `2`. -/
theorem series_ge_parallel_le_spec_witness :
    (∀ x ∈ [(2 : ℚ), 3], 0 < x) ∧ (2 : ℚ) ∈ [(2 : ℚ), 3] ∧
    (2 ≤ calculate_combination_value [(2 : ℚ), 3] Mode.series ∧
      calculate_combination_value [(2 : ℚ), 3] Mode.parallel ≤ 2) := by
  have hpos : ∀ x ∈ [(2 : ℚ), 3], 0 < x := by
    intro x hx
    rcases List.mem_cons.mp hx with h | hx
    · rw [h]; norm_num
    · rcases List.mem_cons.mp hx with h | hx
      · rw [h]; norm_num
      · simp at hx
  have hmem : (2 : ℚ) ∈ [(2 : ℚ), 3] := List.mem_cons_self _ _
  exact ⟨hpos, hmem, series_ge_parallel_le_spec [(2 : ℚ), 3] hpos 2 hmem⟩

/-- C9: combinations drawn from the value table contain no zero magnitude,
so in parallel evaluation the zero guard is unreachable and the reciprocal
sum is strictly positive (no division by zero). -/
theorem table_parallel_safe_spec (c : List ℕ) (h : ∀ r ∈ c, r ∈ STANDARD_RESISTORS) :
    (∀ r ∈ c, ((r : ℚ)) ≠ 0) ∧
    ((c.map (fun (r : ℕ) => (r : ℚ))).any (fun x => decide (x = 0)) = false) ∧
    (c ≠ [] →
      0 < ((c.map (fun (r : ℕ) => (r : ℚ))).map (fun x => 1 / x)).sum ∧
      calculate_combination_value (c.map (fun (r : ℕ) => (r : ℚ))) Mode.parallel =
        1 / ((c.map (fun (r : ℕ) => (r : ℚ))).map (fun x => 1 / x)).sum) := by
  have hpos : ∀ r ∈ c, 0 < r := fun r hr => standard_resistors_pos r (h r hr)
  have h0 : ∀ r ∈ c, ((r : ℚ)) ≠ 0 := fun r hr =>
    Nat.cast_ne_zero.mpr (Nat.pos_iff_ne_zero.mp (hpos r hr))
  have hany : (c.map (fun (r : ℕ) => (r : ℚ))).any (fun x => decide (x = 0)) = false := by
    rw [List.any_eq_false]
    intro x hx
    obtain ⟨z, hz, rfl⟩ := List.mem_map.mp hx
    simp only [decide_eq_true_eq]
    exact h0 z hz
  refine ⟨h0, hany, ?_⟩
  intro hc
  have hmap : c.map (fun (r : ℕ) => (r : ℚ)) ≠ [] := by
    simp [List.map_eq_nil_iff, hc]
  have hsum : 0 < ((c.map (fun (r : ℕ) => (r : ℚ))).map (fun x => 1 / x)).sum := by
    apply List.sum_pos
    · intro y hy
      obtain ⟨w, hw, rfl⟩ := List.mem_map.mp hy
      obtain ⟨z, hz, rfl⟩ := List.mem_map.mp hw
      exact one_div_pos.mpr (by exact_mod_cast hpos z hz)
    · simp [List.map_eq_nil_iff, hc]
  refine ⟨hsum, ?_⟩
  simp [calculate_combination_value, hmap, hany]

/-- Witness for C9 at the concrete table combination `[10, 12]`. -/
theorem table_parallel_safe_spec_witness :
    (∀ r ∈ ([10, 12] : List ℕ), r ∈ STANDARD_RESISTORS) ∧
    ([10, 12] : List ℕ) ≠ [] ∧
    (∀ r ∈ ([10, 12] : List ℕ), ((r : ℚ)) ≠ 0) ∧
    0 < ((([10, 12] : List ℕ).map (fun (r : ℕ) => (r : ℚ))).map (fun x => 1 / x)).sum := by
  have h : ∀ r ∈ ([10, 12] : List ℕ), r ∈ STANDARD_RESISTORS := by decide
  have hne : ([10, 12] : List ℕ) ≠ [] := by decide
  obtain ⟨h0, _, h2⟩ := table_parallel_safe_spec [10, 12] h
  exact ⟨h, hne, h0, (h2 hne).1⟩

/-- C10: for a non-positive target the enumerator yields nothing, whatever
the tolerance, mode and count constraint: the `target > 0` conjunct of the
filter is false, so no tuple passes (and the short-circuit conjunction
never reaches the relative-error division). -/
theorem nonpositive_target_spec (target : ℚ) (h : target ≤ 0)
    (tolerance : ℚ) (mode : Mode) (opt : NumOption) :
    find_combinations target tolerance mode opt = [] := by
  have hdec : decide (0 < target) = false := decide_eq_false (not_lt.mpr h)
  unfold find_combinations
  rw [List.flatMap_eq_nil_iff]
  intro i _
  rw [List.filter_eq_nil_iff]
  intro combo _
  simp [hdec]

/-- Witness for C10 at target 0. -/
theorem nonpositive_target_spec_witness :
    (0 : ℚ) ≤ 0 ∧
    find_combinations 0 (1 / 100) Mode.series (NumOption.exact 1) = [] :=
  ⟨le_refl 0, nonpositive_target_spec 0 (le_refl 0) (1 / 100) Mode.series (NumOption.exact 1)⟩
/-- C2: for a positive target, the enumerator at a requested exact size
yields exactly the non-decreasing tuples of that size drawn with
repetition from the mode-restricted pool whose equivalent resistance is
within the (inclusive) relative tolerance of the target. -/
theorem find_combinations_exact_spec (target tolerance : ℚ) (mode : Mode)
    (n : ℕ) (combo : List ℕ) (htarget : 0 < target) :
    combo ∈ find_combinations target tolerance mode (NumOption.exact n) ↔
      combo.length = n ∧ combo.Pairwise (· ≤ ·) ∧
        (∀ r ∈ combo, r ∈ search_space target tolerance mode) ∧
        |calculate_combination_value (combo.map (fun (r : ℕ) => (r : ℚ))) mode - target|
            / target ≤ tolerance := by
  have hsp := search_space_pairwise target tolerance mode
  unfold find_combinations count_range
  rw [List.flatMap_cons, List.flatMap_nil, List.append_nil, List.mem_filter,
    mem_combinations_with_replacement n _ hsp]
  simp only [Bool.and_eq_true, decide_eq_true_eq]
  constructor
  · rintro ⟨⟨hlen, hpw, hsub⟩, _, htol⟩
    exact ⟨hlen, hpw, hsub, htol⟩
  · rintro ⟨hlen, hpw, hsub, htol⟩
    exact ⟨⟨hlen, hpw, hsub⟩, htarget, htol⟩

/-- Witness for C2 at target 10000, tolerance 1/100, series mode, size 1,
combination `[10000]`. -/
theorem find_combinations_exact_spec_witness :
    (0 : ℚ) < 10000 ∧
    ([10000] ∈ find_combinations 10000 (1 / 100) Mode.series (NumOption.exact 1) ↔
      ([10000] : List ℕ).length = 1 ∧ ([10000] : List ℕ).Pairwise (· ≤ ·) ∧
        (∀ r ∈ ([10000] : List ℕ), r ∈ search_space 10000 (1 / 100) Mode.series) ∧
        |calculate_combination_value (([10000] : List ℕ).map (fun (r : ℕ) => (r : ℚ)))
              Mode.series - 10000| / 10000 ≤ 1 / 100) := by
  have h : (0 : ℚ) < 10000 := by simp
  exact ⟨h, find_combinations_exact_spec 10000 (1 / 100) Mode.series 1 [10000] h⟩
/-- The ranked output lists exactly the distinct input tuples: mapping each
result back to its combination gives a permutation of `combos.dedup`. -/
theorem process_results_perm_dedup (combos : List (List ℕ)) (mode : Mode) (target : ℚ) :
    ((process_results combos mode target).map (fun res => res.combo)).Perm combos.dedup := by
  unfold process_results
  refine ((List.perm_insertionSort resLE _).map (fun res => res.combo)).trans ?_
  rw [List.map_map]
  exact List.Perm.of_eq (List.map_id' combos.dedup)

/-- Amended C3: `process_results` deduplicates by exact tuple equality
(Python `set` of tuples): each tuple occurring in the input yields exactly
one result carrying it, but distinct permutations of the same multiset are
distinct tuples and are not merged. -/
theorem process_results_dedup_amended (combos : List (List ℕ)) (mode : Mode)
    (target : ℚ) (c : List ℕ) :
    ((process_results combos mode target).map (fun res => res.combo)).Nodup ∧
    (c ∈ (process_results combos mode target).map (fun res => res.combo) ↔ c ∈ combos) := by
  have hperm := process_results_perm_dedup combos mode target
  constructor
  · exact hperm.nodup_iff.mpr (List.nodup_dedup combos)
  · rw [hperm.mem_iff]
    exact List.mem_dedup

/-- Counterexample to C3 as stated: `[1,2]` and `[2,1]` are permutations of
the same multiset, yet `process_results` keeps both, producing two
`EvaluatedResult`s rather than one. -/
theorem process_results_multiset_counterexample :
    ([2, 1] : List ℕ).Perm [1, 2] ∧
    (process_results [[1, 2], [2, 1]] Mode.series 3).length = 2 := by
  constructor
  · exact List.Perm.swap 1 2 []
  · have h := (process_results_perm_dedup [[1, 2], [2, 1]] Mode.series 3).length_eq
    rw [List.length_map] at h
    rw [h]
    decide

/-- C4: the ranked output is sorted by (error, component count) --- every
adjacent pair is related by the lexicographic order --- and every result
carries the equivalent value of its combination and the percent error
`|value - target| / target * 100`. -/
theorem process_results_rank_spec (combos : List (List ℕ)) (mode : Mode) (target : ℚ) :
    (process_results combos mode target).Chain'
      (fun a b => a.error < b.error ∨ (a.error = b.error ∧ a.combo.length ≤ b.combo.length)) ∧
    ∀ res ∈ process_results combos mode target,
      res.value = calculate_combination_value (res.combo.map (fun (r : ℕ) => (r : ℚ))) mode ∧
      res.error = |res.value - target| / target * 100 := by
  constructor
  · show List.Chain' resLE _
    exact (List.sorted_insertionSort resLE _).chain'
  · intro res hres
    have hmem : res ∈ _ := (List.perm_insertionSort resLE _).mem_iff.mp hres
    obtain ⟨combo, _, rfl⟩ := List.mem_map.mp hmem
    exact ⟨rfl, rfl⟩
theorem search_space_10k :
    search_space 10000 (1 / 100) Mode.series =
      STANDARD_RESISTORS.filter (fun r => decide (r ≤ 10100)) := by
  unfold search_space
  rw [if_pos rfl]
  apply List.filter_congr
  intro r _
  rw [decide_eq_decide]
  rw [show (10000 : ℚ) * (1 + 1 / 100) = 10100 by norm_num]
  exact_mod_cast Iff.rfl

theorem find_combinations_10k :
    find_combinations 10000 (1 / 100) Mode.series (NumOption.exact 1) = [[10000]] := by
  unfold find_combinations count_range
  rw [List.flatMap_cons, List.flatMap_nil, List.append_nil, search_space_10k, cwr_one,
    List.filter_map]
  have hpt : ∀ r ∈ STANDARD_RESISTORS.filter (fun r => decide (r ≤ 10100)),
      ((fun (combo : List ℕ) =>
          decide ((0 : ℚ) < 10000) &&
            decide (|calculate_combination_value (combo.map (fun (r : ℕ) => (r : ℚ)))
                Mode.series - 10000| / 10000 ≤ 1 / 100)) ∘ (fun x => [x])) r =
        decide (9900 ≤ r ∧ r ≤ 10100) := by
    intro r _
    show (decide ((0 : ℚ) < 10000) &&
        decide (|calculate_combination_value [((r : ℕ) : ℚ)] Mode.series - 10000| / 10000
          ≤ 1 / 100)) = decide (9900 ≤ r ∧ r ≤ 10100)
    rw [decide_eq_true (show (0 : ℚ) < 10000 by norm_num), Bool.true_and]
    rw [show calculate_combination_value [((r : ℕ) : ℚ)] Mode.series = (r : ℚ) by
      simp [calculate_combination_value]]
    rw [decide_eq_decide]
    rw [div_le_iff₀ (show (0 : ℚ) < 10000 by norm_num), abs_le]
    constructor
    · rintro ⟨h1, h2⟩
      constructor
      · exact_mod_cast (by linarith : (9900 : ℚ) ≤ (r : ℚ))
      · exact_mod_cast (by linarith : ((r : ℚ)) ≤ 10100)
    · rintro ⟨h1, h2⟩
      have h1' : (9900 : ℚ) ≤ (r : ℚ) := by exact_mod_cast h1
      have h2' : ((r : ℚ)) ≤ 10100 := by exact_mod_cast h2
      constructor
      · linarith
      · linarith
  rw [List.filter_congr hpt]
  rw [show (STANDARD_RESISTORS.filter (fun r => decide (r ≤ 10100))).filter
      (fun r => decide (9900 ≤ r ∧ r ≤ 10100)) = [10000] by decide]
  rfl

theorem process_results_10k :
    process_results [[10000]] Mode.series 10000 =
      [{ combo := [10000], value := 10000, error := 0 }] := by
  unfold process_results
  rw [show ([[10000]] : List (List ℕ)).dedup = [[10000]] by decide]
  rw [List.map_cons, List.map_nil]
  simp only [List.insertionSort, List.orderedInsert]
  have hv : calculate_combination_value (([10000] : List ℕ).map (fun (r : ℕ) => (r : ℚ)))
      Mode.series = 10000 := by
    simp [calculate_combination_value]
  rw [hv]
  norm_num [EvaluatedResult.mk.injEq]

/-- C8: searching for target 10000 with 1% tolerance in series mode and an
exact count of 1 returns exactly one result: the single resistor 10000,
with equivalent value 10000 and percent error 0. -/
theorem scenario_10k_exact1_spec :
    process_results (find_combinations 10000 (1 / 100) Mode.series (NumOption.exact 1))
        Mode.series 10000 =
      [{ combo := [10000], value := 10000, error := 0 }] := by
  rw [find_combinations_10k, process_results_10k]

/-- Witness for C4: a concrete result of a concrete run, with its ranked
membership and its value/error equations. -/
theorem process_results_rank_spec_witness :
    ({ combo := [10000], value := 10000, error := 0 } : EvaluatedResult) ∈
        process_results [[10000]] Mode.series 10000 ∧
    ((10000 : ℚ) = calculate_combination_value (([10000] : List ℕ).map (fun (r : ℕ) => (r : ℚ)))
        Mode.series ∧
      (0 : ℚ) = |(10000 : ℚ) - 10000| / 10000 * 100) := by
  have hmem : ({ combo := [10000], value := 10000, error := 0 } : EvaluatedResult) ∈
      process_results [[10000]] Mode.series 10000 := by
    rw [process_results_10k]
    exact List.mem_singleton.mpr rfl
  exact ⟨hmem, (process_results_rank_spec [[10000]] Mode.series 10000).2 _ hmem⟩

/-- The base digit set exactly as the spec words it:
{1.0, 1.2, 1.5, 1.8, 2.2, 2.7, 3.3, 3.9, 4.7, 5.6, 6.8, 8.2}. -/
def SPEC_BASE_DIGITS : List ℚ :=
  [1, 12/10, 15/10, 18/10, 22/10, 27/10, 33/10, 39/10, 47/10, 56/10, 68/10, 82/10]

/-- The value table as the spec describes it, for comparison with
`STANDARD_RESISTORS`: the sorted sequence of every product `d * 10 ^ i`
for `d` in the base digit set and `i` over the decades `10^0 .. 10^6`. -/
def spec_value_table : List ℚ :=
  List.insertionSort (· ≤ ·)
    ((List.range 7).flatMap (fun i => SPEC_BASE_DIGITS.map (fun d => d * 10 ^ i)))

/-- Counterexample to C5 as stated: the spec's sequence contains
`1.0 = 1.0 * 10^0`, but every entry of the code's table is at least 10
(the code scales the integers 10..82, so its decades are 10^1 .. 10^7). -/
theorem value_table_decades_counterexample :
    (1 : ℚ) ∈ spec_value_table ∧ ∀ r ∈ STANDARD_RESISTORS, ((r : ℚ)) ≠ 1 := by
  constructor
  · unfold spec_value_table
    rw [(List.perm_insertionSort _ _).mem_iff, List.mem_flatMap]
    refine ⟨0, by simp, ?_⟩
    rw [List.mem_map]
    exact ⟨1, by simp [SPEC_BASE_DIGITS], by norm_num⟩
  · intro r hr
    have h10 : 10 ≤ r := standard_resistors_ge_ten r hr
    have h10q : (10 : ℚ) ≤ (r : ℚ) := by exact_mod_cast h10
    intro heq
    rw [heq] at h10q
    norm_num at h10q

/-- Amended C5: the table is the sorted sequence of every product
`j * 10 ^ i` for `j` in the integer digit set {10, ..., 82} and `i` over
`10^0 .. 10^6` (equivalently, base digits 1.0 .. 8.2 over the decades
`10^1 .. 10^7`); it is strictly increasing, so duplicate-free, and every
element is positive. -/
theorem value_table_amended :
    STANDARD_RESISTORS.Perm
      ((List.range 7).flatMap (fun i => E12_VALUES.map (fun j => j * 10 ^ i))) ∧
    STANDARD_RESISTORS.Pairwise (· < ·) ∧
    ∀ r ∈ STANDARD_RESISTORS, 0 < r :=
  ⟨List.perm_insertionSort _ _, standard_resistors_sorted, standard_resistors_pos⟩
